import Mathlib

/-!
Verification of the Chou-Fasman secondary-structure predictor
(`chou_fasman_predictor.py`).

The Python floats are embedded as exact rationals (every table value is a
multiple of 0.01), lists as `List ℚ` / `List Char`, and the `while`-loop of
`extend_segment` as a fuel-indexed recursion whose fuel provably suffices
(the loop measure `start + (seq_len - end)` strictly decreases on every
changed round, so `start + seq_len + 1` rounds are always enough).
-/

set_option maxRecDepth 10000

namespace ChouFasman

/-- Helix propensity table `P_ALPHA` from the source, as a partial map. -/
def P_ALPHA (c : Char) : Option ℚ :=
  match c with
  | 'E' => some 1.53
  | 'A' => some 1.45
  | 'L' => some 1.34
  | 'H' => some 1.24
  | 'M' => some 1.20
  | 'Q' => some 1.17
  | 'W' => some 1.14
  | 'V' => some 1.14
  | 'F' => some 1.12
  | 'K' => some 1.07
  | 'I' => some 1.00
  | 'D' => some 0.98
  | 'T' => some 0.82
  | 'S' => some 0.79
  | 'R' => some 0.79
  | 'C' => some 0.77
  | 'N' => some 0.73
  | 'Y' => some 0.61
  | 'P' => some 0.59
  | 'G' => some 0.53
  | _ => none

/-- Strand propensity table `P_BETA` from the source, as a partial map. -/
def P_BETA (c : Char) : Option ℚ :=
  match c with
  | 'M' => some 1.67
  | 'V' => some 1.65
  | 'I' => some 1.60
  | 'C' => some 1.30
  | 'Y' => some 1.29
  | 'F' => some 1.28
  | 'Q' => some 1.23
  | 'L' => some 1.22
  | 'T' => some 1.20
  | 'W' => some 1.19
  | 'A' => some 0.97
  | 'R' => some 0.90
  | 'G' => some 0.81
  | 'D' => some 0.80
  | 'K' => some 0.74
  | 'S' => some 0.72
  | 'H' => some 0.71
  | 'N' => some 0.65
  | 'P' => some 0.62
  | 'E' => some 0.26
  | _ => none

/-- Source `pa`: helix propensity, default `0.0` for unknown residues. -/
def pa (res : Char) : ℚ := (P_ALPHA res).getD 0

/-- Source `pb`: strand propensity, default `0.0` for unknown residues. -/
def pb (res : Char) : ℚ := (P_BETA res).getD 0

/-- Source `window_has_min_over_1`: at least `min_count` entries exceed `1.0`. -/
def window_has_min_over_1 (vals : List ℚ) (min_count : Nat) : Bool :=
  decide (min_count ≤ vals.countP (fun v => decide ((1 : ℚ) < v)))

/-- The 4-value left-extension window `[prop_list[start-1]] + prop_list[start:start+3]`. -/
def leftWindow (prop_list : List ℚ) (s : Nat) : List ℚ :=
  prop_list.getD (s - 1) 0 :: (prop_list.drop s).take 3

/-- The 4-value right-extension window `prop_list[end-2:end+1] + [prop_list[end+1]]`. -/
def rightWindow (prop_list : List ℚ) (e : Nat) : List ℚ :=
  (prop_list.drop (e - 2)).take 3 ++ [prop_list.getD (e + 1) 0]

/-- One iteration of the `while` body of `extend_segment`: try the left
extension, then the right extension (whose length guard sees the updated
`start`, as in the source); the `Bool` is the `changed` flag. -/
def extendRound (prop_list : List ℚ) (threshold_sum : ℚ) (seq_len : Nat) (s e : Nat) :
    Nat × Nat × Bool :=
  let left :=
    if 0 < s ∧ 3 ≤ e - s + 1 ∧ threshold_sum ≤ (leftWindow prop_list s).sum
    then (s - 1, true) else (s, false)
  let right :=
    if e < seq_len - 1 ∧ 3 ≤ e - left.1 + 1 ∧ threshold_sum ≤ (rightWindow prop_list e).sum
    then (e + 1, true) else (e, false)
  (left.1, right.1, left.2 || right.2)

/-- Fuel-indexed unfolding of the `while changed` loop of `extend_segment`. -/
def extendFuel (prop_list : List ℚ) (threshold_sum : ℚ) (seq_len : Nat) :
    Nat → Nat → Nat → Nat × Nat
  | 0, s, e => (s, e)
  | fuel + 1, s, e =>
    let r := extendRound prop_list threshold_sum seq_len s e
    if r.2.2 then extendFuel prop_list threshold_sum seq_len fuel r.1 r.2.1 else (s, e)

/-- Source `extend_segment`.  The fuel `s + seq_len + 1` strictly dominates the
loop measure `s + (seq_len - e)`, so the loop always reaches its fixed point
(proved below), making this a faithful rendering of the `while` loop. -/
def extend_segment (s e : Nat) (prop_list : List ℚ) (threshold_sum : ℚ) (seq_len : Nat) :
    Nat × Nat :=
  extendFuel prop_list threshold_sum seq_len (s + seq_len + 1) s e

/-- One extension round as described by the specification: a left step is taken
exactly when `start > 0`, the segment length is at least 3, and the 4-value
window `prop[start-1] + prop[start] + prop[start+1] + prop[start+2]` meets the
threshold; then the mirrored right step using the last three segment residues
plus the candidate at `end+1`. -/
def specRound (prop_list : List ℚ) (threshold_sum : ℚ) (seq_len : Nat) (p : Nat × Nat) :
    Nat × Nat :=
  let s := p.1
  let e := p.2
  let s1 :=
    if 0 < s ∧ 3 ≤ e - s + 1 ∧
        threshold_sum ≤ prop_list.getD (s - 1) 0 + prop_list.getD s 0 +
          prop_list.getD (s + 1) 0 + prop_list.getD (s + 2) 0
    then s - 1 else s
  let e1 :=
    if e < seq_len - 1 ∧ 3 ≤ e - s1 + 1 ∧
        threshold_sum ≤ prop_list.getD (e - 2) 0 + prop_list.getD (e - 1) 0 +
          prop_list.getD e 0 + prop_list.getD (e + 1) 0
    then e + 1 else e
  (s1, e1)

/-- Modelled from the spec: the alternative strand-extension round that uses an
exact strict comparison `sum > threshold` in place of `sum >= 4.0000001`
(design note in the specification). -/
def extendRoundStrict (prop_list : List ℚ) (threshold_sum : ℚ) (seq_len : Nat) (s e : Nat) :
    Nat × Nat × Bool :=
  let left :=
    if 0 < s ∧ 3 ≤ e - s + 1 ∧ threshold_sum < (leftWindow prop_list s).sum
    then (s - 1, true) else (s, false)
  let right :=
    if e < seq_len - 1 ∧ 3 ≤ e - left.1 + 1 ∧ threshold_sum < (rightWindow prop_list e).sum
    then (e + 1, true) else (e, false)
  (left.1, right.1, left.2 || right.2)

/-- Modelled from the spec: fuel-indexed loop of the strict-comparison extender. -/
def extendFuelStrict (prop_list : List ℚ) (threshold_sum : ℚ) (seq_len : Nat) :
    Nat → Nat → Nat → Nat × Nat
  | 0, s, e => (s, e)
  | fuel + 1, s, e =>
    let r := extendRoundStrict prop_list threshold_sum seq_len s e
    if r.2.2 then extendFuelStrict prop_list threshold_sum seq_len fuel r.1 r.2.1 else (s, e)

/-- Modelled from the spec: the strict-comparison variant of `extend_segment`. -/
def extend_segment_strict (s e : Nat) (prop_list : List ℚ) (threshold_sum : ℚ)
    (seq_len : Nat) : Nat × Nat :=
  extendFuelStrict prop_list threshold_sum seq_len (s + seq_len + 1) s e

/-- Lexicographic order on segments, as used by Python `sorted` on pairs. -/
def segLE (a b : Nat × Nat) : Prop := a.1 < b.1 ∨ (a.1 = b.1 ∧ a.2 ≤ b.2)

instance : DecidableRel segLE := fun a b => by
  unfold segLE; infer_instance

/-- The fold of `merge_segments`: `merged[-1]` is the accumulator; a segment
with `s <= acc.end + 1` merges into it, extending the end to the max. -/
def mergeLoop : Nat × Nat → List (Nat × Nat) → List (Nat × Nat)
  | acc, [] => [acc]
  | acc, (s, e) :: rest =>
    if s ≤ acc.2 + 1 then mergeLoop (acc.1, max acc.2 e) rest
    else acc :: mergeLoop (s, e) rest

/-- Source `merge_segments`: sort by start (lexicographically, as Python
`sorted` does on tuples), then fold overlapping/adjacent segments together. -/
def merge_segments (segments : List (Nat × Nat)) : List (Nat × Nat) :=
  match List.insertionSort segLE segments with
  | [] => []
  | first :: rest => mergeLoop first rest

/-- Nucleation scan: the start indices `i` in `range(0, N - w + 1)` whose
`w`-wide window passes `window_has_min_over_1 _ m`. -/
def nucleationStarts (prop_list : List ℚ) (w m : Nat) : List Nat :=
  (List.range (prop_list.length + 1 - w)).filter
    (fun i => window_has_min_over_1 ((prop_list.drop i).take w) m)

/-- The nucleate-then-extend loop body shared by the helix and strand scans. -/
def candidate_segments (prop_list : List ℚ) (w m : Nat) (threshold_sum : ℚ) :
    List (Nat × Nat) :=
  (nucleationStarts prop_list w m).map
    (fun i => extend_segment i (i + (w - 1)) prop_list threshold_sum prop_list.length)

/-- Source `Palpha_list`. -/
def Palpha_list (seq : List Char) : List ℚ := seq.map pa

/-- Source `Pbeta_list`. -/
def Pbeta_list (seq : List Char) : List ℚ := seq.map pb

/-- Source helix pipeline: 6-wide windows, at least 4 over 1.0, threshold 4.0. -/
def helix_segments (seq : List Char) : List (Nat × Nat) :=
  merge_segments (candidate_segments (Palpha_list seq) 6 4 4.0)

/-- Source strand pipeline: 5-wide windows, at least 3 over 1.0, threshold 4.0000001. -/
def strand_segments (seq : List Char) : List (Nat × Nat) :=
  merge_segments (candidate_segments (Pbeta_list seq) 5 3 4.0000001)

/-- The inner paint loop `for k in range(s, e + 1): labels[k] = c`, walking the
label list with a position counter. -/
def setRange (c : Char) (s e : Nat) : List Char → Nat → List Char
  | [], _ => []
  | v :: rest, k => (if s ≤ k ∧ k ≤ e then c else v) :: setRange c s e rest (k + 1)

/-- Painting every segment of a set onto a label list. -/
def paintSegments (c : Char) (segs : List (Nat × Nat)) (labels : List Char) : List Char :=
  segs.foldl (fun l se => setRange c se.1 se.2 l 0) labels

/-- Source `labels_H`. -/
def labels_H (seq : List Char) : List Char :=
  paintSegments 'H' (helix_segments seq) (List.replicate seq.length '-')

/-- Source `labels_S`. -/
def labels_S (seq : List Char) : List Char :=
  paintSegments 'S' (strand_segments seq) (List.replicate seq.length '-')

/-- Source `conflict_mask`: residues claimed by both structure types. -/
def conflict_mask (seq : List Char) : List Bool :=
  (List.range seq.length).map
    (fun i => decide ((labels_H seq).getD i '-' = 'H' ∧ (labels_S seq).getD i '-' = 'S'))

/-- The maximal-run scan over the conflict mask (source `while i < N` loop),
written as a structural recursion carrying the position and the start of the
run currently open (if any). -/
def regionsAux : List Bool → Nat → Option Nat → List (Nat × Nat)
  | [], _, none => []
  | [], pos, some s => [(s, pos - 1)]
  | b :: rest, pos, none =>
    if b then regionsAux rest (pos + 1) (some pos) else regionsAux rest (pos + 1) none
  | b :: rest, pos, some s =>
    if b then regionsAux rest (pos + 1) (some s)
    else (s, pos - 1) :: regionsAux rest (pos + 1) none

/-- Source `conflict_regions`. -/
def conflict_regions (seq : List Char) : List (Nat × Nat) :=
  regionsAux (conflict_mask seq) 0 none

/-- The pre-resolution `final_labels` array: helix paint, then strand paint
with the internal conflict marker `'X'` where both apply. -/
def final0 (seq : List Char) : List Char :=
  (List.range seq.length).map (fun i =>
    if (labels_S seq).getD i '-' = 'S' then
      (if (labels_H seq).getD i '-' = 'H' then 'X' else 'S')
    else (if (labels_H seq).getD i '-' = 'H' then 'H' else '-'))

/-- The type chosen for a conflict region: `'S'` iff `avg_pb > avg_pa`. -/
def chosenOf (pa_arr pb_arr : List ℚ) (p : Nat × Nat) : Char :=
  let s := p.1
  let e := p.2
  let len : ℚ := ((e - s + 1 : Nat) : ℚ)
  let avg_pa := ((pa_arr.drop s).take (e + 1 - s)).sum / len
  let avg_pb := ((pb_arr.drop s).take (e + 1 - s)).sum / len
  if avg_pa < avg_pb then 'S' else 'H'

/-- One step of the conflict-resolution loop: overwrite the region with the
chosen type. -/
def resolveOne (pa_arr pb_arr : List ℚ) (f : List Char) (p : Nat × Nat) : List Char :=
  setRange (chosenOf pa_arr pb_arr p) p.1 p.2 f 0

/-- The `final_labels` array after the conflict-resolution loop. -/
def resolvedLabels (seq : List Char) : List Char :=
  (conflict_regions seq).foldl (resolveOne (Palpha_list seq) (Pbeta_list seq)) (final0 seq)

/-- The defensive cleanup loop: any residual `'X'` becomes `'H'`. -/
def cleanupX (l : List Char) : List Char :=
  l.map (fun c => if c = 'X' then 'H' else c)

/-- The final per-residue label array produced by the program. -/
def final_labels (seq : List Char) : List Char := cleanupX (resolvedLabels seq)

attribute [local semireducible] Rat.add Rat.mul Rat.inv Rat.sub Rat.ofScientific

/-- Sum of a three-element slice, written through total `getD` lookups (missing
entries contribute `0`, matching Python slice truncation). -/
theorem take3_sum (l : List ℚ) :
    ∀ i, ((l.drop i).take 3).sum = l.getD i 0 + l.getD (i + 1) 0 + l.getD (i + 2) 0 := by
  induction l with
  | nil => intro i; simp
  | cons a t ih =>
    intro i
    cases i with
    | zero =>
      match t with
      | [] => simp
      | [b] => simp <;> ring
      | b :: c :: t3 => simp <;> ring
    | succ j => simpa using ih j

/-- The left 4-value window sums to the four propensities named by the spec. -/
theorem leftWindow_sum (l : List ℚ) (s : Nat) :
    (leftWindow l s).sum =
      l.getD (s - 1) 0 + l.getD s 0 + l.getD (s + 1) 0 + l.getD (s + 2) 0 := by
  simp [leftWindow, take3_sum] <;> ring

/-- The right 4-value window sums to the four propensities named by the spec,
whenever the segment is long enough for the window to make sense. -/
theorem rightWindow_sum (l : List ℚ) (e : Nat) (he : 2 ≤ e) :
    (rightWindow l e).sum =
      l.getD (e - 2) 0 + l.getD (e - 1) 0 + l.getD e 0 + l.getD (e + 1) 0 := by
  have h1 : e - 2 + 1 = e - 1 := by omega
  have h2 : e - 2 + 2 = e := by omega
  simp [rightWindow, take3_sum, h1, h2] <;> ring

/-- The source round and the spec round compute the same boundaries, and the
`changed` flag is set exactly when the boundaries moved. -/
theorem extendRound_eq (l : List ℚ) (th : ℚ) (L s e : Nat) :
    extendRound l th L s e =
      ((specRound l th L (s, e)).1, (specRound l th L (s, e)).2,
        decide (specRound l th L (s, e) ≠ (s, e))) := by
  have hRiff : ∀ s1 : Nat,
      (e < L - 1 ∧ 3 ≤ e - s1 + 1 ∧ th ≤ (rightWindow l e).sum) ↔
      (e < L - 1 ∧ 3 ≤ e - s1 + 1 ∧
        th ≤ l.getD (e - 2) 0 + l.getD (e - 1) 0 + l.getD e 0 + l.getD (e + 1) 0) := by
    intro s1
    constructor
    · rintro ⟨h1, h2, h3⟩
      refine ⟨h1, h2, ?_⟩
      rwa [rightWindow_sum l e (by omega)] at h3
    · rintro ⟨h1, h2, h3⟩
      refine ⟨h1, h2, ?_⟩
      rwa [rightWindow_sum l e (by omega)]
  simp only [extendRound, specRound, leftWindow_sum]
  by_cases hL : 0 < s ∧ 3 ≤ e - s + 1 ∧
      th ≤ l.getD (s - 1) 0 + l.getD s 0 + l.getD (s + 1) 0 + l.getD (s + 2) 0
  · simp only [if_pos hL]
    by_cases hR : e < L - 1 ∧ 3 ≤ e - (s - 1) + 1 ∧
        th ≤ l.getD (e - 2) 0 + l.getD (e - 1) 0 + l.getD e 0 + l.getD (e + 1) 0
    · have hne : ((s - 1 : Nat), (e + 1 : Nat)) ≠ (s, e) := by
        simp [Prod.ext_iff]
      simp only [if_pos ((hRiff (s - 1)).mpr hR), if_pos hR]
      simp [hne]
    · have hne : ((s - 1 : Nat), e) ≠ (s, e) := by
        simp [Prod.ext_iff]
        omega
      simp only [if_neg (fun hc => hR ((hRiff (s - 1)).mp hc)), if_neg hR]
      simp [hne]
  · simp only [if_neg hL]
    by_cases hR : e < L - 1 ∧ 3 ≤ e - s + 1 ∧
        th ≤ l.getD (e - 2) 0 + l.getD (e - 1) 0 + l.getD e 0 + l.getD (e + 1) 0
    · have hne : (s, (e + 1 : Nat)) ≠ (s, e) := by
        simp [Prod.ext_iff]
      simp only [if_pos ((hRiff s).mpr hR), if_pos hR]
      simp [hne]
    · simp only [if_neg (fun hc => hR ((hRiff s).mp hc)), if_neg hR]
      simp

/-- The spec round never moves `start` right nor `end` left. -/
theorem specRound_le (l : List ℚ) (th : ℚ) (L s e : Nat) :
    (specRound l th L (s, e)).1 ≤ s ∧ e ≤ (specRound l th L (s, e)).2 := by
  simp only [specRound]
  split_ifs <;> simp <;> omega

/-- Each boundary of the spec round moves by exactly one step, and only under
its own guard. -/
theorem specRound_cases (l : List ℚ) (th : ℚ) (L s e : Nat) :
    (((specRound l th L (s, e)).1 = s - 1 ∧ 0 < s) ∨ (specRound l th L (s, e)).1 = s) ∧
    (((specRound l th L (s, e)).2 = e + 1 ∧ e < L - 1) ∨ (specRound l th L (s, e)).2 = e) := by
  simp only [specRound]
  split_ifs with h1 h2 h3 <;> simp_all

/-- A round that changes the segment strictly decreases the loop measure
`start + (seq_len - end)`. -/
theorem specRound_measure (l : List ℚ) (th : ℚ) (L : Nat) (p : Nat × Nat)
    (h : specRound l th L p ≠ p) :
    (specRound l th L p).1 + (L - (specRound l th L p).2) < p.1 + (L - p.2) := by
  obtain ⟨s, e⟩ := p
  have hc := specRound_cases l th L s e
  have hle := specRound_le l th L s e
  rcases hc with ⟨hc1 | hc1, hc2 | hc2⟩
  · omega
  · omega
  · omega
  · exfalso
    apply h
    have hsplit : specRound l th L (s, e) =
        ((specRound l th L (s, e)).1, (specRound l th L (s, e)).2) := rfl
    rw [hsplit, hc1, hc2]

/-- Every run of the fuelled loop is some number of spec-round iterations. -/
theorem extendFuel_eq_iterate (l : List ℚ) (th : ℚ) (L : Nat) :
    ∀ fuel s e, ∃ n, (specRound l th L)^[n] (s, e) = extendFuel l th L fuel s e := by
  intro fuel
  induction fuel with
  | zero => intro s e; exact ⟨0, rfl⟩
  | succ f ih =>
    intro s e
    by_cases hch : specRound l th L (s, e) ≠ (s, e)
    · obtain ⟨n, hn⟩ := ih (specRound l th L (s, e)).1 (specRound l th L (s, e)).2
      refine ⟨n + 1, ?_⟩
      simp only [extendFuel, extendRound_eq, decide_eq_true hch, if_true]
      rw [Function.iterate_succ_apply]
      exact hn
    · refine ⟨0, ?_⟩
      simp only [extendFuel, extendRound_eq]
      rw [decide_eq_false hch]
      simp

/-- With fuel above the measure, the loop lands on a fixed point of the round. -/
theorem extendFuel_fix (l : List ℚ) (th : ℚ) (L : Nat) :
    ∀ fuel s e, s + (L - e) < fuel →
      specRound l th L (extendFuel l th L fuel s e) = extendFuel l th L fuel s e := by
  intro fuel
  induction fuel with
  | zero => intro s e h; exact absurd h (by omega)
  | succ f ih =>
    intro s e h
    by_cases hch : specRound l th L (s, e) ≠ (s, e)
    · have hm := specRound_measure l th L (s, e) hch
      simp only [extendFuel, extendRound_eq, decide_eq_true hch, if_true]
      exact ih _ _ (by omega)
    · simp only [extendFuel, extendRound_eq]
      rw [decide_eq_false hch]
      simpa using not_not.mp hch

/-- The fuelled loop never shrinks the segment. -/
theorem extendFuel_le (l : List ℚ) (th : ℚ) (L : Nat) :
    ∀ fuel s e, (extendFuel l th L fuel s e).1 ≤ s ∧ e ≤ (extendFuel l th L fuel s e).2 := by
  intro fuel
  induction fuel with
  | zero => intro s e; exact ⟨le_refl s, le_refl e⟩
  | succ f ih =>
    intro s e
    by_cases hch : specRound l th L (s, e) ≠ (s, e)
    · have h1 := ih (specRound l th L (s, e)).1 (specRound l th L (s, e)).2
      have h2 := specRound_le l th L s e
      simp only [extendFuel, extendRound_eq, decide_eq_true hch, if_true]
      omega
    · simp only [extendFuel, extendRound_eq]
      rw [decide_eq_false hch]
      simp

/-- The `extend_segment` result is a fixed point of the spec round. -/
theorem extend_segment_fix (l : List ℚ) (th : ℚ) (L s e : Nat) :
    specRound l th L (extend_segment s e l th L) = extend_segment s e l th L :=
  extendFuel_fix l th L (s + L + 1) s e (by omega)

/-- C1: on any inclusive initial segment inside the sequence, the Segment
Extender computes exactly the iteration of the one-residue-per-side spec
round (left step exactly when `start > 0`, length `>= 3`, and the 4-value
window sum meets the threshold; right step the mirror at `end + 1`) and
returns a fixed point of that round, i.e. the value at which a full round
grows neither side. -/
theorem extend_segment_returns_specRound_fixpoint (prop_list : List ℚ)
    (threshold_sum : ℚ) (seq_len s e : Nat) (h1 : s ≤ e) (h2 : e + 1 ≤ seq_len) :
    (∃ n, (specRound prop_list threshold_sum seq_len)^[n] (s, e) =
        extend_segment s e prop_list threshold_sum seq_len) ∧
    specRound prop_list threshold_sum seq_len
        (extend_segment s e prop_list threshold_sum seq_len) =
      extend_segment s e prop_list threshold_sum seq_len :=
  ⟨extendFuel_eq_iterate prop_list threshold_sum seq_len (s + seq_len + 1) s e,
    extend_segment_fix prop_list threshold_sum seq_len s e⟩

/-- Witness for C1 at a concrete input: six residues of propensity `1.67`
with the strand threshold; the seed `[1, 5]` extends to `[0, 5]`. -/
theorem extend_segment_returns_specRound_fixpoint_witness :
    (1 : Nat) ≤ 5 ∧ (5 : Nat) + 1 ≤ 6 ∧
    ((∃ n, (specRound [1.67, 1.67, 1.67, 1.67, 1.67, 1.67] 4.0000001 6)^[n] (1, 5) =
        extend_segment 1 5 [1.67, 1.67, 1.67, 1.67, 1.67, 1.67] 4.0000001 6) ∧
      specRound [1.67, 1.67, 1.67, 1.67, 1.67, 1.67] 4.0000001 6
          (extend_segment 1 5 [1.67, 1.67, 1.67, 1.67, 1.67, 1.67] 4.0000001 6) =
        extend_segment 1 5 [1.67, 1.67, 1.67, 1.67, 1.67, 1.67] 4.0000001 6) :=
  ⟨by decide, by decide,
    extend_segment_returns_specRound_fixpoint [1.67, 1.67, 1.67, 1.67, 1.67, 1.67]
      4.0000001 6 1 5 (by decide) (by decide)⟩

/-- C7: the fixed-point loop of the Segment Extender terminates — every round
that continues strictly increases the segment length, the length stays
bounded by the sequence length, and the returned segment makes the `changed` flag of the loop false. -/
theorem extend_segment_terminates (prop_list : List ℚ) (threshold_sum : ℚ)
    (seq_len s e : Nat) (h1 : s ≤ e) (h2 : e + 1 ≤ seq_len) :
    (∀ s0 e0 s1 e1, s0 ≤ e0 → e0 + 1 ≤ seq_len →
        extendRound prop_list threshold_sum seq_len s0 e0 = (s1, e1, true) →
        e0 - s0 < e1 - s1 ∧ e1 - s1 + 1 ≤ seq_len) ∧
    (extendRound prop_list threshold_sum seq_len
        (extend_segment s e prop_list threshold_sum seq_len).1
        (extend_segment s e prop_list threshold_sum seq_len).2).2.2 = false := by
  constructor
  · intro s0 e0 s1 e1 hs0 he0 hEq
    rw [extendRound_eq] at hEq
    have hc := specRound_cases prop_list threshold_sum seq_len s0 e0
    simp only [Prod.mk.injEq] at hEq
    obtain ⟨hq1, hq2, hq3⟩ := hEq
    have hne : specRound prop_list threshold_sum seq_len (s0, e0) ≠ (s0, e0) :=
      of_decide_eq_true hq3
    rcases hc with ⟨hc1 | hc1, hc2 | hc2⟩
    · omega
    · omega
    · omega
    · exfalso
      apply hne
      have hsplit : specRound prop_list threshold_sum seq_len (s0, e0) =
          ((specRound prop_list threshold_sum seq_len (s0, e0)).1,
            (specRound prop_list threshold_sum seq_len (s0, e0)).2) := rfl
      rw [hsplit, hc1, hc2]
  · rw [extendRound_eq]
    have hfix := extend_segment_fix prop_list threshold_sum seq_len s e
    have hsplit : ((extend_segment s e prop_list threshold_sum seq_len).1,
        (extend_segment s e prop_list threshold_sum seq_len).2) =
        extend_segment s e prop_list threshold_sum seq_len := rfl
    simp [hsplit, hfix]

/-- Witness for C7 at a concrete input. -/
theorem extend_segment_terminates_witness :
    (1 : Nat) ≤ 5 ∧ (5 : Nat) + 1 ≤ 6 ∧
    ((∀ s0 e0 s1 e1, s0 ≤ e0 → e0 + 1 ≤ 6 →
        extendRound [1.67, 1.67, 1.67, 1.67, 1.67, 1.67] 4.0000001 6 s0 e0 = (s1, e1, true) →
        e0 - s0 < e1 - s1 ∧ e1 - s1 + 1 ≤ 6) ∧
      (extendRound [1.67, 1.67, 1.67, 1.67, 1.67, 1.67] 4.0000001 6
          (extend_segment 1 5 [1.67, 1.67, 1.67, 1.67, 1.67, 1.67] 4.0000001 6).1
          (extend_segment 1 5 [1.67, 1.67, 1.67, 1.67, 1.67, 1.67] 4.0000001 6).2).2.2 =
        false) :=
  ⟨by decide, by decide,
    extend_segment_terminates [1.67, 1.67, 1.67, 1.67, 1.67, 1.67] 4.0000001 6 1 5
      (by decide) (by decide)⟩

/-- C8: the Segment Extender is idempotent — re-running it on the segment it
returned yields the same `[start, end]` unchanged. -/
theorem extend_segment_idempotent (prop_list : List ℚ) (threshold_sum : ℚ)
    (seq_len s e : Nat) :
    extend_segment (extend_segment s e prop_list threshold_sum seq_len).1
        (extend_segment s e prop_list threshold_sum seq_len).2
        prop_list threshold_sum seq_len =
      extend_segment s e prop_list threshold_sum seq_len := by
  have hfix := extend_segment_fix prop_list threshold_sum seq_len s e
  have hsplit : ((extend_segment s e prop_list threshold_sum seq_len).1,
      (extend_segment s e prop_list threshold_sum seq_len).2) =
      extend_segment s e prop_list threshold_sum seq_len := rfl
  show extendFuel prop_list threshold_sum seq_len _ _ _ = _
  simp only [extendFuel, extendRound_eq, hsplit, hfix]
  simp

/-- C10: the Segment Extender never shrinks a segment — the returned
boundaries satisfy `start' <= start` and `end' >= end`. -/
theorem extend_segment_never_shrinks (prop_list : List ℚ) (threshold_sum : ℚ)
    (seq_len s e : Nat) :
    (extend_segment s e prop_list threshold_sum seq_len).1 ≤ s ∧
    e ≤ (extend_segment s e prop_list threshold_sum seq_len).2 :=
  extendFuel_le prop_list threshold_sum seq_len (s + seq_len + 1) s e

/-- C9: a residue code absent from both propensity tables contributes `0.0`
to both arrays and never counts toward a nucleation seed, since `0.0` is
never strictly greater than `1.0`. -/
theorem unknown_residue_inert (c : Char) (u v : List ℚ) (m : Nat)
    (hA : P_ALPHA c = none) (hB : P_BETA c = none) :
    pa c = 0 ∧ pb c = 0 ∧
    window_has_min_over_1 (u ++ pa c :: v) m = window_has_min_over_1 (u ++ v) m ∧
    window_has_min_over_1 (u ++ pb c :: v) m = window_has_min_over_1 (u ++ v) m := by
  have hpa : pa c = 0 := by simp [pa, hA]
  have hpb : pb c = 0 := by simp [pb, hB]
  have h10 : ¬ (1 : ℚ) < 0 := by norm_num
  refine ⟨hpa, hpb, ?_, ?_⟩ <;>
    simp [window_has_min_over_1, List.countP_append, List.countP_cons, hpa, hpb, h10]

/-- Witness for C9 at the residue `'X'`, absent from both tables. -/
theorem unknown_residue_inert_witness :
    pa 'X' = 0 ∧ pb 'X' = 0 ∧
    window_has_min_over_1 ([1.53] ++ pa 'X' :: [0.5]) 1 =
      window_has_min_over_1 ([1.53] ++ [0.5]) 1 ∧
    window_has_min_over_1 ([1.53] ++ pb 'X' :: [0.5]) 1 =
      window_has_min_over_1 ([1.53] ++ [0.5]) 1 :=
  unknown_residue_inert 'X' [1.53] [0.5] 1 (by decide) (by decide)

/-- Membership in the nucleation scan output is exactly the window condition
of the spec. -/
theorem nucleationStarts_correct (props : List ℚ) (w m i : Nat) :
    i ∈ nucleationStarts props w m ↔
      i + w ≤ props.length ∧
        m ≤ ((props.drop i).take w).countP (fun v => decide ((1 : ℚ) < v)) := by
  simp only [nucleationStarts, List.mem_filter, List.mem_range, window_has_min_over_1,
    decide_eq_true_eq]
  constructor
  · rintro ⟨h1, h2⟩
    exact ⟨by omega, h2⟩
  · rintro ⟨h1, h2⟩
    exact ⟨by omega, h2⟩

/-- The nucleation scan visits start indices in ascending order. -/
theorem nucleationStarts_sorted (props : List ℚ) (w m : Nat) :
    (nucleationStarts props w m).Sorted (· < ·) :=
  (List.sorted_lt_range _).filter _

/-- C2: the Window Scanner nucleates exactly the start indices whose window
holds at least `m` values strictly above `1.0`, in ascending order; the helix
scan uses width 6 / count 4 and the strand scan width 5 / count 3. -/
theorem nucleation_scan_correct (props : List ℚ) (i : Nat) :
    (i ∈ nucleationStarts props 6 4 ↔
      i + 6 ≤ props.length ∧
        4 ≤ ((props.drop i).take 6).countP (fun v => decide ((1 : ℚ) < v))) ∧
    (i ∈ nucleationStarts props 5 3 ↔
      i + 5 ≤ props.length ∧
        3 ≤ ((props.drop i).take 5).countP (fun v => decide ((1 : ℚ) < v))) ∧
    (nucleationStarts props 6 4).Sorted (· < ·) ∧
    (nucleationStarts props 5 3).Sorted (· < ·) :=
  ⟨nucleationStarts_correct props 6 4 i, nucleationStarts_correct props 5 3 i,
    nucleationStarts_sorted props 6 4, nucleationStarts_sorted props 5 3⟩

/-- A rational is a whole number of hundredths. -/
def Cent (q : ℚ) : Prop := ∃ k : ℤ, q = k / 100

/-- On hundredth-valued sums, the source threshold `>= 4.0000001` coincides
with the exact strict comparison `> 4.0`. -/
theorem cent_threshold_iff (q : ℚ) (hq : Cent q) :
    ((4.0000001 : ℚ) ≤ q ↔ (4 : ℚ) < q) := by
  obtain ⟨k, rfl⟩ := hq
  have h100 : (0 : ℚ) < 100 := by norm_num
  rw [le_div_iff h100, lt_div_iff h100]
  constructor
  · intro h
    have hgt : (4.0000001 : ℚ) * 100 > 4 * 100 := by norm_num
    linarith
  · intro h
    have hk : (400 : ℤ) < k := by exact_mod_cast (by norm_num at h ⊢; exact_mod_cast h : (400 : ℚ) < (k : ℚ))
    have hk1 : (401 : ℤ) ≤ k := hk
    have hk1q : (401 : ℚ) ≤ (k : ℚ) := by exact_mod_cast hk1
    nlinarith

theorem cent_zero : Cent 0 := ⟨0, by norm_num⟩

theorem cent_add {a b : ℚ} (ha : Cent a) (hb : Cent b) : Cent (a + b) := by
  obtain ⟨k, rfl⟩ := ha
  obtain ⟨j, rfl⟩ := hb
  exact ⟨k + j, by push_cast; ring⟩

theorem cent_sum (l : List ℚ) (h : ∀ v ∈ l, Cent v) : Cent l.sum := by
  induction l with
  | nil => simpa using cent_zero
  | cons a t ih =>
    simp only [List.sum_cons]
    exact cent_add (h a (by simp)) (ih fun v hv => h v (by simp [hv]))

theorem cent_getD (l : List ℚ) (h : ∀ v ∈ l, Cent v) : ∀ i, Cent (l.getD i 0) := by
  induction l with
  | nil => intro i; simpa using cent_zero
  | cons a t ih =>
    intro i
    cases i with
    | zero => exact h a (by simp)
    | succ j => simpa using ih (fun v hv => h v (by simp [hv])) j

theorem cent_leftWindow (l : List ℚ) (h : ∀ v ∈ l, Cent v) (s : Nat) :
    ∀ v ∈ leftWindow l s, Cent v := by
  intro v hv
  simp only [leftWindow, List.mem_cons] at hv
  rcases hv with hv | hv
  · rw [hv]; exact cent_getD l h (s - 1)
  · exact h v (((List.take_sublist _ _).trans (List.drop_sublist _ _)).subset hv)

theorem cent_rightWindow (l : List ℚ) (h : ∀ v ∈ l, Cent v) (e : Nat) :
    ∀ v ∈ rightWindow l e, Cent v := by
  intro v hv
  simp only [rightWindow, List.mem_append, List.mem_singleton] at hv
  rcases hv with hv | hv
  · exact h v (((List.take_sublist _ _).trans (List.drop_sublist _ _)).subset hv)
  · rw [hv]; exact cent_getD l h (e + 1)

/-- On hundredth-valued propensities, one thresholded round agrees with one
strict round. -/
theorem strictRound_eq (l : List ℚ) (hmul : ∀ v ∈ l, Cent v) (L s e : Nat) :
    extendRound l 4.0000001 L s e = extendRoundStrict l 4 L s e := by
  have hL := cent_threshold_iff _ (cent_sum _ (cent_leftWindow l hmul s))
  have hR := cent_threshold_iff _ (cent_sum _ (cent_rightWindow l hmul e))
  simp only [extendRound, extendRoundStrict, hL, hR]

/-- On hundredth-valued propensities, the two fuelled loops agree step by step. -/
theorem strictFuel_eq (l : List ℚ) (hmul : ∀ v ∈ l, Cent v) (L : Nat) :
    ∀ fuel s e, extendFuel l 4.0000001 L fuel s e = extendFuelStrict l 4 L fuel s e := by
  intro fuel
  induction fuel with
  | zero => intro s e; rfl
  | succ f ih =>
    intro s e
    simp only [extendFuel, extendFuelStrict, strictRound_eq l hmul L s e]
    split_ifs
    · exact ih _ _
    · rfl

/-- C6: on propensity arrays whose entries are exact multiples of `0.01`
(every table value and the `0.0` default), strand extension with the source
comparison `sum >= 4.0000001` returns exactly the same segment as extension
with the exact strict comparison `sum > 4.0`, for every initial segment. -/
theorem strand_threshold_emulates_strict (prop_list : List ℚ)
    (hmul : ∀ v ∈ prop_list, ∃ k : ℤ, v = k / 100) (s e seq_len : Nat) :
    extend_segment s e prop_list 4.0000001 seq_len =
      extend_segment_strict s e prop_list 4 seq_len :=
  strictFuel_eq prop_list hmul seq_len (s + seq_len + 1) s e

/-- Witness for C6 on the first five strand-table values. -/
theorem strand_threshold_emulates_strict_witness :
    extend_segment 0 4 [1.67, 1.65, 1.60, 1.30, 1.29] 4.0000001 5 =
      extend_segment_strict 0 4 [1.67, 1.65, 1.60, 1.30, 1.29] 4 5 :=
  strand_threshold_emulates_strict [1.67, 1.65, 1.60, 1.30, 1.29]
    (by
      intro v hv
      simp only [List.mem_cons, List.not_mem_nil, or_false] at hv
      rcases hv with h | h | h | h | h <;> rw [h]
      · exact ⟨167, by norm_num⟩
      · exact ⟨165, by norm_num⟩
      · exact ⟨160, by norm_num⟩
      · exact ⟨130, by norm_num⟩
      · exact ⟨129, by norm_num⟩)
    0 4 5

instance : IsTotal (Nat × Nat) segLE :=
  ⟨fun a b => by unfold segLE; omega⟩

instance : IsTrans (Nat × Nat) segLE :=
  ⟨fun a b c hab hbc => by unfold segLE at *; omega⟩

/-- The merge fold keeps starts above the accumulator start and produces
disjoint, non-adjacent output in start order, given start-sorted input. -/
theorem mergeLoop_invariant :
    ∀ (rest : List (Nat × Nat)) (a : Nat × Nat),
      List.Pairwise (fun x y => x.1 ≤ y.1) rest → (∀ x ∈ rest, a.1 ≤ x.1) →
      (∀ p ∈ mergeLoop a rest, a.1 ≤ p.1) ∧
      List.Pairwise (fun x y => x.2 + 1 < y.1) (mergeLoop a rest) ∧
      List.Pairwise (fun x y => x.1 ≤ y.1) (mergeLoop a rest) := by
  intro rest
  induction rest with
  | nil =>
    intro a _ _
    refine ⟨?_, ?_, ?_⟩ <;> simp [mergeLoop]
  | cons q rest ih =>
    intro a hpw hmin
    obtain ⟨s, e⟩ := q
    obtain ⟨hhead, htail⟩ := List.pairwise_cons.mp hpw
    have has : a.1 ≤ s := hmin (s, e) (by simp)
    by_cases hmerge : s ≤ a.2 + 1
    · rw [mergeLoop, if_pos hmerge]
      have hmin' : ∀ x ∈ rest, (a.1, max a.2 e).1 ≤ x.1 := by
        intro x hx
        exact le_trans has (hhead x hx)
      exact ih (a.1, max a.2 e) htail hmin'
    · rw [mergeLoop, if_neg hmerge]
      have hmin' : ∀ x ∈ rest, ((s, e) : Nat × Nat).1 ≤ x.1 := hhead
      obtain ⟨ihmin, ihpw2, ihpw1⟩ := ih (s, e) htail hmin'
      refine ⟨?_, ?_, ?_⟩
      · intro p hp
        rcases List.mem_cons.mp hp with hp | hp
        · rw [hp]
        · exact le_trans has (le_trans (by omega) (ihmin p hp))
      · refine List.pairwise_cons.mpr ⟨?_, ihpw2⟩
        intro p hp
        have := ihmin p hp
        omega
      · refine List.pairwise_cons.mpr ⟨?_, ihpw1⟩
        intro p hp
        have := ihmin p hp
        omega

/-- C4: the Segment Merger returns segments sorted by start index, pairwise
non-overlapping and non-adjacent (`end_i + 1 < start_j` for `i < j`). -/
theorem merge_segments_disjoint_sorted (segments : List (Nat × Nat)) :
    List.Pairwise (fun x y => x.2 + 1 < y.1) (merge_segments segments) ∧
    List.Pairwise (fun x y => x.1 ≤ y.1) (merge_segments segments) := by
  have hsorted : List.Sorted segLE (List.insertionSort segLE segments) :=
    List.sorted_insertionSort segLE segments
  cases h : List.insertionSort segLE segments with
  | nil => simp [merge_segments, h]
  | cons first rest =>
    rw [h] at hsorted
    have hfirsts : List.Pairwise (fun x y : Nat × Nat => x.1 ≤ y.1) (first :: rest) := by
      refine hsorted.imp ?_
      intro x y hxy
      unfold segLE at hxy
      omega
    obtain ⟨hhead, htail⟩ := List.pairwise_cons.mp hfirsts
    have hinv := mergeLoop_invariant rest first htail hhead
    have hms : merge_segments segments = mergeLoop first rest := by
      unfold merge_segments
      rw [h]
    rw [hms]
    exact ⟨hinv.2.1, hinv.2.2⟩

/-- Lookup into a mapped range list. -/
theorem getD_range_map {α : Type} (f : Nat → α) (n k : Nat) (d : α) :
    ((List.range n).map f).getD k d = if k < n then f k else d := by
  rcases Nat.lt_or_ge k n with h | h
  · rw [if_pos h, List.getD_eq_getElem?_getD, List.getElem?_map, List.getElem?_range h]
    rfl
  · rw [if_neg (by omega)]
    apply List.getD_eq_default
    simpa using h

/-- Painting a range does not change the list length. -/
theorem setRange_length (c : Char) (s e : Nat) :
    ∀ (l : List Char) (base : Nat), (setRange c s e l base).length = l.length := by
  intro l
  induction l with
  | nil => intro base; rfl
  | cons v t ih => intro base; simp [setRange, ih]

/-- Pointwise description of the paint loop. -/
theorem setRange_getD (c : Char) (s e : Nat) :
    ∀ (l : List Char) (base k : Nat) (d : Char),
      (setRange c s e l base).getD k d =
        if k < l.length ∧ s ≤ base + k ∧ base + k ≤ e then c else l.getD k d := by
  intro l
  induction l with
  | nil =>
    intro base k d
    simp [setRange]
  | cons v t ih =>
    intro base k d
    cases k with
    | zero =>
      simp only [setRange, List.getD_cons_zero, List.length_cons]
      refine (if_congr ?_ rfl rfl).symm
      constructor
      · rintro ⟨h1, h2, h3⟩
        exact ⟨by omega, by omega⟩
      · rintro ⟨h1, h2⟩
        exact ⟨by omega, by omega, by omega⟩
    | succ j =>
      simp only [setRange, List.getD_cons_succ]
      rw [ih (base + 1) j d]
      rw [List.length_cons]
      refine if_congr ?_ rfl rfl
      constructor
      · rintro ⟨h1, h2, h3⟩
        exact ⟨by omega, by omega, by omega⟩
      · rintro ⟨h1, h2, h3⟩
        exact ⟨by omega, by omega, by omega⟩

/-- Unfolding equations of the maximal-run scan. -/
theorem regionsAux_true_none (rest : List Bool) (pos : Nat) :
    regionsAux (true :: rest) pos none = regionsAux rest (pos + 1) (some pos) := rfl

theorem regionsAux_true_some (rest : List Bool) (pos s0 : Nat) :
    regionsAux (true :: rest) pos (some s0) = regionsAux rest (pos + 1) (some s0) := rfl

theorem regionsAux_false_none (rest : List Bool) (pos : Nat) :
    regionsAux (false :: rest) pos none = regionsAux rest (pos + 1) none := rfl

theorem regionsAux_false_some (rest : List Bool) (pos s0 : Nat) :
    regionsAux (false :: rest) pos (some s0) =
      (s0, pos - 1) :: regionsAux rest (pos + 1) none := rfl

/-- Region bounds from the maximal-run scan: regions are well-formed intervals
lying between the pending-run start and the end of the scanned mask. -/
theorem regionsAux_bounds :
    ∀ (mask : List Bool) (pos : Nat) (cur : Option Nat),
      (∀ s0, cur = some s0 → s0 < pos) →
      ∀ p ∈ regionsAux mask pos cur,
        cur.getD pos ≤ p.1 ∧ p.1 ≤ p.2 ∧ p.2 + 1 ≤ pos + mask.length ∧ pos ≤ p.2 + 1 := by
  intro mask
  induction mask with
  | nil =>
    intro pos cur hcur p hp
    cases cur with
    | none => simp [regionsAux] at hp
    | some s0 =>
      have hs0 := hcur s0 rfl
      simp [regionsAux] at hp
      subst hp
      refine ⟨?_, ?_, ?_, ?_⟩ <;> simp <;> omega
  | cons b rest ih =>
    intro pos cur hcur p hp
    cases cur with
    | none =>
      cases b with
      | true =>
        rw [regionsAux_true_none] at hp
        have := ih (pos + 1) (some pos) (by intro s0 h; injection h with h; omega) p hp
        simp only [Option.getD_some] at this
        simp only [Option.getD_none, List.length_cons]
        omega
      | false =>
        rw [regionsAux_false_none] at hp
        have := ih (pos + 1) none (by intro s0 h; cases h) p hp
        simp only [Option.getD_none] at this
        simp only [Option.getD_none, List.length_cons]
        omega
    | some s0 =>
      have hs0 := hcur s0 rfl
      cases b with
      | true =>
        rw [regionsAux_true_some] at hp
        have := ih (pos + 1) (some s0) (by intro s1 h; injection h with h; omega) p hp
        simp only [Option.getD_some] at this ⊢
        simp only [List.length_cons]
        omega
      | false =>
        rw [regionsAux_false_some] at hp
        rcases List.mem_cons.mp hp with hp | hp
        · subst hp
          refine ⟨?_, ?_, ?_, ?_⟩ <;> simp <;> omega
        · have := ih (pos + 1) none (by intro s1 h; cases h) p hp
          simp only [Option.getD_none] at this
          simp only [Option.getD_some, List.length_cons]
          omega

/-- Regions from the maximal-run scan are pairwise disjoint, in order. -/
theorem regionsAux_pairwise :
    ∀ (mask : List Bool) (pos : Nat) (cur : Option Nat),
      (∀ s0, cur = some s0 → s0 < pos) →
      List.Pairwise (fun x y => x.2 < y.1) (regionsAux mask pos cur) := by
  intro mask
  induction mask with
  | nil =>
    intro pos cur hcur
    cases cur <;> simp [regionsAux]
  | cons b rest ih =>
    intro pos cur hcur
    cases cur with
    | none =>
      cases b with
      | true =>
        rw [regionsAux_true_none]
        exact ih (pos + 1) (some pos) (by intro s0 h; injection h with h; omega)
      | false =>
        rw [regionsAux_false_none]
        exact ih (pos + 1) none (by intro s0 h; cases h)
    | some s0 =>
      have hs0 := hcur s0 rfl
      cases b with
      | true =>
        rw [regionsAux_true_some]
        exact ih (pos + 1) (some s0) (by intro s1 h; injection h with h; omega)
      | false =>
        rw [regionsAux_false_some]
        refine List.pairwise_cons.mpr ⟨?_, ih (pos + 1) none (by intro s1 h; cases h)⟩
        intro p hp
        have := regionsAux_bounds rest (pos + 1) none (by intro s1 h; cases h) p hp
        simp only [Option.getD_none] at this
        omega

/-- An open run is eventually closed, covering all its positions. -/
theorem regionsAux_cover_run :
    ∀ (mask : List Bool) (pos s0 : Nat), s0 < pos →
      ∀ k, s0 ≤ k → k < pos →
        ∃ p ∈ regionsAux mask pos (some s0), p.1 ≤ k ∧ k ≤ p.2 := by
  intro mask
  induction mask with
  | nil =>
    intro pos s0 hs0 k hk1 hk2
    refine ⟨(s0, pos - 1), by simp [regionsAux], by omega, by omega⟩
  | cons b rest ih =>
    intro pos s0 hs0 k hk1 hk2
    cases b with
    | true =>
      rw [regionsAux_true_some]
      exact ih (pos + 1) s0 (by omega) k hk1 (by omega)
    | false =>
      rw [regionsAux_false_some]
      exact ⟨(s0, pos - 1), by simp, by omega, by omega⟩

/-- Completeness of the maximal-run scan: every set position of the mask is
covered by some returned region. -/
theorem regionsAux_complete :
    ∀ (mask : List Bool) (pos : Nat) (cur : Option Nat),
      (∀ s0, cur = some s0 → s0 < pos) →
      ∀ j, mask.getD j false = true →
        ∃ p ∈ regionsAux mask pos cur, p.1 ≤ pos + j ∧ pos + j ≤ p.2 := by
  intro mask
  induction mask with
  | nil =>
    intro pos cur hcur j hj
    simp at hj
  | cons b rest ih =>
    intro pos cur hcur j hj
    cases j with
    | zero =>
      simp only [List.getD_cons_zero] at hj
      subst hj
      cases cur with
      | none =>
        rw [regionsAux_true_none]
        have := regionsAux_cover_run rest (pos + 1) pos (by omega) pos (by omega) (by omega)
        simpa using this
      | some s0 =>
        have hs0 := hcur s0 rfl
        rw [regionsAux_true_some]
        have := regionsAux_cover_run rest (pos + 1) s0 (by omega) pos (by omega) (by omega)
        obtain ⟨p, hp, h1, h2⟩ := this
        exact ⟨p, hp, by omega, by omega⟩
    | succ j' =>
      simp only [List.getD_cons_succ] at hj
      cases b with
      | true =>
        cases cur with
        | none =>
          rw [regionsAux_true_none]
          obtain ⟨p, hp, h1, h2⟩ :=
            ih (pos + 1) (some pos) (by intro s1 h; injection h with h; omega) j' hj
          exact ⟨p, hp, by omega, by omega⟩
        | some s0 =>
          have hs0 := hcur s0 rfl
          rw [regionsAux_true_some]
          obtain ⟨p, hp, h1, h2⟩ :=
            ih (pos + 1) (some s0) (by intro s1 h; injection h with h; omega) j' hj
          exact ⟨p, hp, by omega, by omega⟩
      | false =>
        cases cur with
        | none =>
          rw [regionsAux_false_none]
          obtain ⟨p, hp, h1, h2⟩ := ih (pos + 1) none (by intro s1 h; cases h) j' hj
          exact ⟨p, hp, by omega, by omega⟩
        | some s0 =>
          rw [regionsAux_false_some]
          obtain ⟨p, hp, h1, h2⟩ := ih (pos + 1) none (by intro s1 h; cases h) j' hj
          exact ⟨p, List.mem_cons_of_mem _ hp, by omega, by omega⟩

/-- Positions covered by no region are untouched by the resolution fold. -/
theorem resolve_fold_untouched (A B : List ℚ) :
    ∀ (regions : List (Nat × Nat)) (f : List Char) (k : Nat) (d : Char),
      (∀ p ∈ regions, ¬(p.1 ≤ k ∧ k ≤ p.2)) →
      (regions.foldl (resolveOne A B) f).getD k d = f.getD k d := by
  intro regions
  induction regions with
  | nil => intro f k d _; rfl
  | cons q rest ih =>
    intro f k d h
    simp only [List.foldl_cons]
    rw [ih _ k d (fun p hp => h p (List.mem_cons_of_mem _ hp))]
    unfold resolveOne
    rw [setRange_getD]
    rw [if_neg]
    intro hc
    exact h q (by simp) ⟨by omega, by omega⟩

/-- The resolution fold preserves the label-array length. -/
theorem resolve_fold_length (A B : List ℚ) :
    ∀ (regions : List (Nat × Nat)) (f : List Char),
      (regions.foldl (resolveOne A B) f).length = f.length := by
  intro regions
  induction regions with
  | nil => intro f; rfl
  | cons q rest ih =>
    intro f
    simp only [List.foldl_cons]
    rw [ih]
    unfold resolveOne
    exact setRange_length _ _ _ f 0

/-- On pairwise-disjoint regions, the fold writes the chosen type of each region
at every position of that region. -/
theorem resolve_fold_write (A B : List ℚ) :
    ∀ (regions : List (Nat × Nat)) (f : List Char) (p : Nat × Nat) (k : Nat) (d : Char),
      List.Pairwise (fun x y => x.2 < y.1) regions → p ∈ regions →
      p.1 ≤ k → k ≤ p.2 → k < f.length →
      (regions.foldl (resolveOne A B) f).getD k d = chosenOf A B p := by
  intro regions
  induction regions with
  | nil =>
    intro f p k d _ hp
    simp at hp
  | cons q rest ih =>
    intro f p k d hpw hp hk1 hk2 hklen
    obtain ⟨hhead, htail⟩ := List.pairwise_cons.mp hpw
    simp only [List.foldl_cons]
    rcases List.mem_cons.mp hp with hq | hrest
    · subst hq
      have hunt : ∀ r ∈ rest, ¬(r.1 ≤ k ∧ k ≤ r.2) := by
        intro r hr hc
        have := hhead r hr
        omega
      rw [resolve_fold_untouched A B rest _ k d hunt]
      unfold resolveOne
      rw [setRange_getD, if_pos ⟨hklen, by omega, by omega⟩]
    · apply ih (resolveOne A B f q) p k d htail hrest hk1 hk2
      unfold resolveOne
      rw [setRange_length]
      exact hklen

/-- Pointwise description of the defensive cleanup loop. -/
theorem cleanupX_getD (l : List Char) :
    ∀ (k : Nat) (d : Char), k < l.length →
      (cleanupX l).getD k d = if l.getD k d = 'X' then 'H' else l.getD k d := by
  induction l with
  | nil => intro k d hk; simp at hk
  | cons v t ih =>
    intro k d hk
    cases k with
    | zero => simp [cleanupX]
    | succ j =>
      simp only [cleanupX, List.map_cons, List.getD_cons_succ]
      exact ih j d (by simpa using hk)

/-- A label array with no marker is a fixed point of the cleanup loop. -/
theorem cleanupX_eq_self (l : List Char) (h : ∀ k, k < l.length → l.getD k '-' ≠ 'X') :
    cleanupX l = l := by
  induction l with
  | nil => rfl
  | cons v t ih =>
    have hv : v ≠ 'X' := by simpa using h 0 (by simp)
    have ht : ∀ k, k < t.length → t.getD k '-' ≠ 'X' := by
      intro k hk
      have := h (k + 1) (by simpa using hk)
      simpa using this
    simp only [cleanupX, List.map_cons, if_neg hv]
    exact congrArg (fun x => v :: x) (ih ht)

/-- Length facts for the pipeline arrays. -/
theorem final0_length (seq : List Char) : (final0 seq).length = seq.length := by
  simp [final0]

theorem conflict_mask_length (seq : List Char) :
    (conflict_mask seq).length = seq.length := by
  simp [conflict_mask]

theorem resolvedLabels_length (seq : List Char) :
    (resolvedLabels seq).length = seq.length := by
  unfold resolvedLabels
  rw [resolve_fold_length, final0_length]

/-- Pointwise values of the pre-resolution label array. -/
theorem final0_getD (seq : List Char) (k : Nat) (hk : k < seq.length) :
    (final0 seq).getD k '-' =
      (if (labels_S seq).getD k '-' = 'S' then
        (if (labels_H seq).getD k '-' = 'H' then 'X' else 'S')
      else (if (labels_H seq).getD k '-' = 'H' then 'H' else '-')) := by
  unfold final0
  rw [getD_range_map, if_pos hk]

/-- Pointwise values of the conflict mask. -/
theorem conflict_mask_getD (seq : List Char) (k : Nat) (hk : k < seq.length) :
    (conflict_mask seq).getD k false =
      decide ((labels_H seq).getD k '-' = 'H' ∧ (labels_S seq).getD k '-' = 'S') := by
  unfold conflict_mask
  rw [getD_range_map, if_pos hk]

/-- Sum of a Python slice as a sum over an index range. -/
theorem slice_sum_range (l : List ℚ) :
    ∀ (c s : Nat), s + c ≤ l.length →
      ((l.drop s).take c).sum = ∑ j ∈ Finset.range c, l.getD (s + j) 0 := by
  intro c
  induction c with
  | zero => intro s _; simp
  | succ c ih =>
    intro s h
    have hs : s < l.length := by omega
    rw [List.drop_eq_getElem_cons hs]
    simp only [List.take_succ_cons, List.sum_cons]
    rw [ih (s + 1) (by omega), Finset.sum_range_succ']
    have hget : l[s] = l.getD s 0 := by
      rw [List.getD_eq_getElem?_getD, List.getElem?_eq_getElem hs]
      rfl
    rw [hget]
    have hidx : ∀ j ∈ Finset.range c, l.getD (s + 1 + j) 0 = l.getD (s + (j + 1)) 0 := by
      intro j _
      congr 1
      omega
    rw [Finset.sum_congr rfl hidx]
    exact add_comm _ _

/-- The slice `l[s : e+1]` sums the propensities over exactly the indices
`s..e`. -/
theorem slice_sum_Icc (l : List ℚ) (s e : Nat) (he : e < l.length) :
    ((l.drop s).take (e + 1 - s)).sum = ∑ i ∈ Finset.Icc s e, l.getD i 0 := by
  rcases le_or_lt s e with hse | hse
  · rw [slice_sum_range l (e + 1 - s) s (by omega), ← Nat.Ico_succ_right,
      Finset.sum_Ico_eq_sum_range]
  · have h0 : e + 1 - s = 0 := by omega
    rw [h0]
    simp [Finset.Icc_eq_empty_of_lt hse]

/-- C3: for every Conflict Region `[s, e]`, the Resolver computes the means
of the helix and strand propensities over exactly the indices `s..e`, assigns
the whole region strand iff `avg_Pb > avg_Pa` (helix on ties), and overwrites
every final label in `[s, e]` with the chosen type. -/
theorem conflict_region_resolution (seq : List Char) (s e k : Nat)
    (hreg : (s, e) ∈ conflict_regions seq) (hks : s ≤ k) (hke : k ≤ e) :
    (final_labels seq).getD k '-' =
      (if (∑ i ∈ Finset.Icc s e, (Palpha_list seq).getD i 0) / ((e - s + 1 : Nat) : ℚ) <
          (∑ i ∈ Finset.Icc s e, (Pbeta_list seq).getD i 0) / ((e - s + 1 : Nat) : ℚ)
        then 'S' else 'H') := by
  have hb := regionsAux_bounds (conflict_mask seq) 0 none (by intro s0 h; cases h)
    (s, e) hreg
  have hbe : e + 1 ≤ seq.length := by
    have := hb.2.2.1
    simp [conflict_mask_length] at this
    omega
  have hpw := regionsAux_pairwise (conflict_mask seq) 0 none (by intro s0 h; cases h)
  have hklen : k < (final0 seq).length := by rw [final0_length]; omega
  have hres : (resolvedLabels seq).getD k '-' =
      chosenOf (Palpha_list seq) (Pbeta_list seq) (s, e) :=
    resolve_fold_write (Palpha_list seq) (Pbeta_list seq) (conflict_regions seq)
      (final0 seq) (s, e) k '-' hpw hreg hks hke hklen
  have hklen2 : k < (resolvedLabels seq).length := by rw [resolvedLabels_length]; omega
  have hlen_a : e < (Palpha_list seq).length := by simp [Palpha_list]; omega
  have hlen_b : e < (Pbeta_list seq).length := by simp [Pbeta_list]; omega
  unfold final_labels
  rw [cleanupX_getD (resolvedLabels seq) k '-' hklen2, hres]
  simp only [chosenOf]
  rw [slice_sum_Icc _ s e hlen_a, slice_sum_Icc _ s e hlen_b]
  split_ifs <;> simp_all

/-- C5: after the Conflict Region loop, no internal conflict marker `'X'`
remains — every label is unassigned, helix, or strand, and the defensive
marker-to-helix cleanup pass is the identity. -/
theorem no_marker_survives (seq : List Char) :
    (∀ k : Nat,
      (resolvedLabels seq).getD k '-' = '-' ∨ (resolvedLabels seq).getD k '-' = 'H' ∨
        (resolvedLabels seq).getD k '-' = 'S') ∧
    final_labels seq = resolvedLabels seq := by
  have hkey : ∀ k : Nat, (resolvedLabels seq).getD k '-' = '-' ∨
      (resolvedLabels seq).getD k '-' = 'H' ∨ (resolvedLabels seq).getD k '-' = 'S' := by
    intro k
    rcases Nat.lt_or_ge k seq.length with hk | hk
    · by_cases hcov : ∃ p ∈ conflict_regions seq, p.1 ≤ k ∧ k ≤ p.2
      · obtain ⟨p, hp, hk1, hk2⟩ := hcov
        have hpw := regionsAux_pairwise (conflict_mask seq) 0 none (by intro s0 h; cases h)
        have hklen : k < (final0 seq).length := by rw [final0_length]; omega
        have hres : (resolvedLabels seq).getD k '-' =
            chosenOf (Palpha_list seq) (Pbeta_list seq) p :=
          resolve_fold_write (Palpha_list seq) (Pbeta_list seq) (conflict_regions seq)
            (final0 seq) p k '-' hpw hp hk1 hk2 hklen
        rw [hres]
        simp only [chosenOf]
        split_ifs
        · right; right; rfl
        · right; left; rfl
      · have hunt : ∀ p ∈ conflict_regions seq, ¬(p.1 ≤ k ∧ k ≤ p.2) :=
          fun p hp hc => hcov ⟨p, hp, hc.1, hc.2⟩
        have huntouched : (resolvedLabels seq).getD k '-' = (final0 seq).getD k '-' :=
          resolve_fold_untouched (Palpha_list seq) (Pbeta_list seq)
            (conflict_regions seq) (final0 seq) k '-' hunt
        rcases Bool.eq_false_or_eq_true ((conflict_mask seq).getD k false) with hmask | hmask
        · exfalso
          obtain ⟨p, hp, h1, h2⟩ :=
            regionsAux_complete (conflict_mask seq) 0 none (by intro s0 h; cases h) k hmask
          exact hcov ⟨p, hp, by omega, by omega⟩
        · rw [huntouched, final0_getD seq k hk]
          rw [conflict_mask_getD seq k hk] at hmask
          have hns : ¬((labels_H seq).getD k '-' = 'H' ∧ (labels_S seq).getD k '-' = 'S') :=
            of_decide_eq_false hmask
          split_ifs with h1 h2 h3
          · exact absurd ⟨h2, h1⟩ hns
          · right; right; rfl
          · right; left; rfl
          · left; rfl
    · left
      apply List.getD_eq_default
      rw [resolvedLabels_length]
      omega
  refine ⟨hkey, ?_⟩
  unfold final_labels
  apply cleanupX_eq_self
  intro k hk
  rcases hkey k with h | h | h <;> rw [h] <;> decide

/-- Witness for C3 on the all-methionine sequence, whose single conflict
region `[0, 5]` resolves to strand. -/
theorem conflict_region_resolution_witness :
    (0, 5) ∈ conflict_regions ['M', 'M', 'M', 'M', 'M', 'M'] ∧ (0 : Nat) ≤ 3 ∧
    (3 : Nat) ≤ 5 ∧
    (final_labels ['M', 'M', 'M', 'M', 'M', 'M']).getD 3 '-' =
      (if (∑ i ∈ Finset.Icc 0 5,
            (Palpha_list ['M', 'M', 'M', 'M', 'M', 'M']).getD i 0) / ((5 - 0 + 1 : Nat) : ℚ) <
          (∑ i ∈ Finset.Icc 0 5,
            (Pbeta_list ['M', 'M', 'M', 'M', 'M', 'M']).getD i 0) / ((5 - 0 + 1 : Nat) : ℚ)
        then 'S' else 'H') :=
  ⟨by decide, by decide, by decide,
    conflict_region_resolution ['M', 'M', 'M', 'M', 'M', 'M'] 0 5 3
      (by decide) (by decide) (by decide)⟩

end ChouFasman
